import Mathlib

/-!
Verification of the token-sequence packing and shard re-slicing pipeline
(GPT-Neo preprocessing script, `c4_sequence_packing.py`).

The embedding below mirrors the Python source:
* the sequence splitter (the `for t in raw_tokenized` loop, including the
  inner `while len(t) > BLOCK_SIZE-1` loop driven by `np.argwhere`/`np.max`),
* the first-fit-decreasing packer (`sorted(..., reverse=True)` followed by
  the bin scan over `bins`/`bin_space`),
* block finalization (concatenation, position ranges, right padding), shard
  chunking and the `torch.stack` shape check,
* the reslicer `process_rest` (rolling buffer, exact `SLICE_SIZE` cuts).

Loops that are `while` loops in the source are embedded with an explicit
fuel argument equal to the initial buffer length; each iteration consumes at
least one element, so this fuel is always sufficient (proved where needed),
and the definitions compute by `rfl`/`decide`.
-/

namespace SeqPack

/-- BLOCK_SIZE constant from the script (packing capacity in tokens). -/
def BLOCK_SIZE : Nat := 512

/-- SLICE_SIZE constant from the script (blocks per shard). -/
def SLICE_SIZE : Nat := 5000

/-! ## Sequence splitter -/

/-- Embeds `np.argwhere(np.array(t) == v)`: the (increasing) list of indices
of `t` holding the value `v`. -/
def argwhereEq (t : List Nat) (v : Nat) : List Nat :=
  (List.range t.length).filter (fun i => t.get? i = some v)

/-- Embeds `np.max((dot_pos < (BLOCK_SIZE - 1)) * dot_pos)`: each position is
kept if it is strictly below `bs - 1` and replaced by `0` otherwise, and the
maximum is taken (the source only evaluates this on a nonempty `dot_pos`,
for which `foldr max 0` agrees with `np.max`). -/
def splitPosOf (bs : Nat) (dotPos : List Nat) : Nat :=
  (dotPos.map (fun p => if p < bs - 1 then p else 0)).foldr max 0

/-- Embeds the inner `while len(t) > BLOCK_SIZE-1` loop of the splitter with
explicit fuel.  Each iteration appends `t[:split_pos] + [eos]` with recorded
length `split_pos + 1` and continues on `t[split_pos+1:]`; the loop `break`s
(returning the unconsumed remainder, which the caller drops) when no
boundary token occurs in `t`. -/
def splitLoopF (bs eos b : Nat) : Nat → List Nat → List (List Nat × Nat) × List Nat
  | 0, t => ([], t)
  | fuel + 1, t =>
    if bs - 1 < t.length then
      if argwhereEq t b = [] then ([], t)
      else
        ((t.take (splitPosOf bs (argwhereEq t b)) ++ [eos], splitPosOf bs (argwhereEq t b) + 1)
            :: (splitLoopF bs eos b fuel (t.drop (splitPosOf bs (argwhereEq t b) + 1))).1,
          (splitLoopF bs eos b fuel (t.drop (splitPosOf bs (argwhereEq t b) + 1))).2)
    else ([], t)

/-- The splitter's inner loop (fuel `t.length`, always sufficient). -/
def splitRun (bs eos b : Nat) (t : List Nat) : List (List Nat × Nat) × List Nat :=
  splitLoopF bs eos b t.length t

/-- Embeds the body of `for t in raw_tokenized`: a short sequence is emitted
as `t + [eos]` with recorded length `len(t) + 1`; an over-long sequence goes
through the splitting loop, whose final remainder is dropped. -/
def splitSeq (bs eos b : Nat) (t : List Nat) : List (List Nat × Nat) :=
  if t.length ≤ bs - 1 then [(t ++ [eos], t.length + 1)]
  else (splitRun bs eos b t).1

/-- The whole tokenize-and-split pass over a batch: `tokenized`/`lengths`
as the zipped list of (sub-sequence, recorded length) pairs. -/
def splitBatch (bs eos b : Nat) (raw : List (List Nat)) : List (List Nat × Nat) :=
  (raw.map (splitSeq bs eos b)).flatten

/-! ## Packer -/

/-- A bin of the packing loop: the `(length, index)` pairs assigned to it
(the source's `bins[i]`) together with its free capacity (the source's
`bin_space[i]`, a Python int, hence `Int`). -/
abbrev BinT : Type := List (Nat × Nat) × Int

/-- Embeds `[(l, i) for i, l in enumerate(lengths)]` starting at index `n`. -/
def withIndexFrom (n : Nat) : List Nat → List (Nat × Nat)
  | [] => []
  | l :: ls => (l, n) :: withIndexFrom (n + 1) ls

/-- Stable descending insertion (by length, the first component): the
inserted element goes before the first element whose key is not larger,
so earlier elements precede later ones on equal keys. -/
def insertDesc (x : Nat × Nat) : List (Nat × Nat) → List (Nat × Nat)
  | [] => [x]
  | y :: ys => if y.1 ≤ x.1 then x :: y :: ys else y :: insertDesc x ys

/-- Embeds `sorted(pairs, key=lambda x: x[0], reverse=True)` — Python's sort
is stable, which this insertion sort reproduces. -/
def sortByLenDesc (l : List (Nat × Nat)) : List (Nat × Nat) :=
  l.foldr insertDesc []

/-- Embeds `indexed_lengths`: enumerate the lengths and stably sort them in
descending length order. -/
def indexedLengths (lens : List Nat) : List (Nat × Nat) :=
  sortByLenDesc (withIndexFrom 0 lens)

/-- Embeds the `for i in range(len(bins))` first-fit scan: place the pair in
the first bin with `bin_space[i] >= length`, returning `none` when no bin
fits (`placed = False`). -/
def tryPlace (li : Nat × Nat) : List BinT → Option (List BinT)
  | [] => none
  | bin :: rest =>
    if (li.1 : Int) ≤ bin.2 then some ((bin.1 ++ [li], bin.2 - (li.1 : Int)) :: rest)
    else
      match tryPlace li rest with
      | some rest2 => some (bin :: rest2)
      | none => none

/-- One iteration of the packing loop: first-fit placement, else a fresh bin
with free capacity `BLOCK_SIZE - length`. -/
def packStep (bs : Nat) (bins : List BinT) (li : Nat × Nat) : List BinT :=
  match tryPlace li bins with
  | some bins2 => bins2
  | none => bins ++ [([li], (bs : Int) - (li.1 : Int))]

/-- The packing loop over the sorted `(length, index)` pairs. -/
def pack (bs : Nat) (lens : List Nat) : List BinT :=
  (indexedLengths lens).foldl (packStep bs) []

/-- Embeds `combined_ids`: the concatenation of the member sub-sequences'
token ids, fetched by original index, in bin-assignment order. -/
def binIds (tokenized : List (List Nat)) (m : List (Nat × Nat)) : List Nat :=
  (m.map (fun li => tokenized.getD li.2 [])).flatten

/-- Embeds `combined_pos`: `list(range(length))` per member, concatenated in
bin-assignment order. -/
def binPos (m : List (Nat × Nat)) : List Nat :=
  (m.map (fun li => List.range li.1)).flatten

/-- Embeds `F.pad(..., (0, pad_len), value=pad)` guarded by `pad_len > 0`:
right-pad to `bs` entries when the array is shorter than `bs`, otherwise
leave it unchanged. -/
def padTo (bs pad : Nat) (xs : List Nat) : List Nat :=
  if xs.length < bs then xs ++ List.replicate (bs - xs.length) pad else xs

/-- Finalize one bin into a Block: padded token array (pad value `eos`) and
padded position array (pad value `0`). -/
def finalizeBin (bs eos : Nat) (tokenized : List (List Nat)) (m : List (Nat × Nat)) :
    List Nat × List Nat :=
  (padTo bs eos (binIds tokenized m), padTo bs 0 (binPos m))

/-- All finalized Blocks of a batch, in bin-creation order. -/
def finalizeAll (bs eos : Nat) (tokenized : List (List Nat)) (lens : List Nat) :
    List (List Nat × List Nat) :=
  (pack bs lens).map (fun bin => finalizeBin bs eos tokenized bin.1)

/-- Embeds `torch.stack`: succeeds (returning the block list) only when the
list is nonempty and all blocks share one length; a shape mismatch raises,
modelled as `none`. -/
def stackBlocks (blocks : List (List Nat)) : Option (List (List Nat)) :=
  match blocks with
  | [] => none
  | x :: rest => if rest.all (fun y => y.length == x.length) then some (x :: rest) else none

/-- Embeds the flush pattern of `map_to_batch` with explicit fuel: a shard
is cut whenever `SLICE_SIZE` blocks have accumulated, and a final nonempty
rest is flushed as the `rest` shard. -/
def chunkEveryF (ss : Nat) : Nat → List (List Nat) → List (List (List Nat))
  | 0, l => if l = [] then [] else [l]
  | fuel + 1, l =>
    if ss ≤ l.length ∧ 0 < ss then l.take ss :: chunkEveryF ss fuel (l.drop ss)
    else if l = [] then [] else [l]

/-- Shard chunking at its canonical fuel. -/
def chunkEvery (ss : Nat) (l : List (List Nat)) : List (List (List Nat)) :=
  chunkEveryF ss l.length l

/-- The token-id side of `map_to_batch` after splitting: pack, finalize,
chunk into shards and stack each shard (`none` = the stack call raises). -/
def mapToBatchShards (bs ss eos : Nat) (tokenized : List (List Nat)) (lens : List Nat) :
    List (Option (List (List Nat))) :=
  (chunkEvery ss ((pack bs lens).map (fun bin => (finalizeBin bs eos tokenized bin.1).1))).map
    stackBlocks

/-! ## Reslicer (`process_rest`) -/

/-- Embeds the inner `while buffer_length >= SLICE_SIZE` loop of
`process_rest` with explicit fuel: repeatedly cut the first `ss` blocks of
the buffer as a new shard and keep only the remainder. -/
def emitSlicesF (ss : Nat) : Nat → List α → List (List α) × List α
  | 0, b => ([], b)
  | fuel + 1, b =>
    if ss ≤ b.length ∧ 0 < ss then
      (b.take ss :: (emitSlicesF ss fuel (b.drop ss)).1, (emitSlicesF ss fuel (b.drop ss)).2)
    else ([], b)

/-- The slice-emission loop at its canonical fuel. -/
def emitSlices (ss : Nat) (b : List α) : List (List α) × List α :=
  emitSlicesF ss b.length b

/-- Embeds one iteration of the file loop of `process_rest`: append the
file's blocks to the rolling buffer, then emit every possible full shard.
The state is (shards written so far, current buffer). -/
def processFile (ss : Nat) (st : List (List α) × List α) (file : List α) :
    List (List α) × List α :=
  (st.1 ++ (emitSlices ss (st.2 ++ file)).1, (emitSlices ss (st.2 ++ file)).2)

/-- Embeds `process_rest` over the leftover shard files, given in
consumption order (the source pops paths from the end of its list; the
claims do not depend on that order).  Returns the shards written and the
final buffered remainder, which the source never writes. -/
def processRest (ss : Nat) (files : List (List α)) : List (List α) × List α :=
  files.foldl (processFile ss) ([], [])

/-! ## Splitter lemmas -/

lemma mem_argwhereEq {t : List Nat} {v i : Nat} :
    i ∈ argwhereEq t v ↔ t.get? i = some v := by
  unfold argwhereEq
  rw [List.mem_filter, List.mem_range]
  constructor
  · rintro ⟨-, h⟩
    exact of_decide_eq_true h
  · intro h
    rcases List.get?_eq_some.mp h with ⟨hl, -⟩
    exact ⟨hl, decide_eq_true h⟩

lemma argwhereEq_eq_nil {t : List Nat} {v : Nat} :
    argwhereEq t v = [] ↔ v ∉ t := by
  constructor
  · intro h hv
    rcases List.mem_iff_get?.mp hv with ⟨n, hn⟩
    have : n ∈ argwhereEq t v := mem_argwhereEq.mpr hn
    simp [h] at this
  · intro hv
    by_contra h
    rcases List.exists_mem_of_ne_nil _ h with ⟨i, hi⟩
    exact hv (List.get?_mem (mem_argwhereEq.mp hi))

lemma le_foldr_max (l : List Nat) : ∀ x ∈ l, x ≤ l.foldr max 0 := by
  induction l with
  | nil => intro x hx; cases hx
  | cons a l ih =>
    intro x hx
    rcases List.mem_cons.mp hx with rfl | hx
    · exact le_max_left _ _
    · exact le_trans (ih x hx) (le_max_right _ _)

lemma foldr_max_mem_or_zero (l : List Nat) : l.foldr max 0 ∈ l ∨ l.foldr max 0 = 0 := by
  induction l with
  | nil => exact Or.inr rfl
  | cons a l ih =>
    rcases max_choice a (l.foldr max 0) with h | h
    · exact Or.inl (by rw [List.foldr_cons, h]; exact List.mem_cons_self a l)
    · rcases ih with h2 | h2
      · exact Or.inl (by rw [List.foldr_cons, h]; exact List.mem_cons_of_mem a h2)
      · exact Or.inr (by rw [List.foldr_cons, h, h2])

lemma splitPosOf_lt_or_zero (bs : Nat) (dp : List Nat) :
    splitPosOf bs dp < bs - 1 ∨ splitPosOf bs dp = 0 := by
  unfold splitPosOf
  rcases foldr_max_mem_or_zero (dp.map (fun p => if p < bs - 1 then p else 0)) with h | h
  · rcases List.mem_map.mp h with ⟨p, -, hp⟩
    by_cases hlt : p < bs - 1
    · simp only [hlt, if_true] at hp
      exact Or.inl (hp ▸ hlt)
    · simp only [hlt, if_false] at hp
      exact Or.inr hp.symm
  · exact Or.inr h

/-- Fuel does not matter once it is at least the length of the sequence. -/
lemma splitLoopF_fuel (bs eos b : Nat) :
    ∀ f1 f2 t, t.length ≤ f1 → t.length ≤ f2 →
      splitLoopF bs eos b f1 t = splitLoopF bs eos b f2 t := by
  intro f1
  induction f1 with
  | zero =>
    intro f2 t h1 _
    have ht : t = [] := List.eq_nil_of_length_eq_zero (Nat.le_zero.mp h1)
    subst ht
    cases f2 with
    | zero => rfl
    | succ k => simp [splitLoopF]
  | succ f ih =>
    intro f2 t h1 h2
    cases f2 with
    | zero =>
      have ht : t = [] := List.eq_nil_of_length_eq_zero (Nat.le_zero.mp h2)
      subst ht
      simp [splitLoopF]
    | succ k =>
      simp only [splitLoopF]
      by_cases hl : bs - 1 < t.length
      · simp only [hl, if_true]
        by_cases ha : argwhereEq t b = []
        · simp [ha]
        · simp only [ha, if_false]
          have hdrop : (t.drop (splitPosOf bs (argwhereEq t b) + 1)).length ≤ f := by
            rw [List.length_drop]; omega
          have hdrop2 : (t.drop (splitPosOf bs (argwhereEq t b) + 1)).length ≤ k := by
            rw [List.length_drop]; omega
          rw [ih k _ hdrop hdrop2]
      · simp [hl]

/-- One-step unfolding of the splitter loop at canonical fuel. -/
lemma splitRun_eq (bs eos b : Nat) (t : List Nat) :
    splitRun bs eos b t =
      if bs - 1 < t.length then
        if argwhereEq t b = [] then ([], t)
        else
          ((t.take (splitPosOf bs (argwhereEq t b)) ++ [eos], splitPosOf bs (argwhereEq t b) + 1)
              :: (splitRun bs eos b (t.drop (splitPosOf bs (argwhereEq t b) + 1))).1,
            (splitRun bs eos b (t.drop (splitPosOf bs (argwhereEq t b) + 1))).2)
      else ([], t) := by
  unfold splitRun
  cases t with
  | nil => simp [splitLoopF]
  | cons x xs =>
    simp only [List.length_cons, splitLoopF]
    by_cases hl : bs - 1 < (x :: xs).length
    · simp only [List.length_cons] at hl
      simp only [hl, if_true]
      by_cases ha : argwhereEq (x :: xs) b = []
      · simp [ha]
      · simp only [ha, if_false]
        have hle : ((x :: xs).drop (splitPosOf bs (argwhereEq (x :: xs) b) + 1)).length
            ≤ xs.length := by
          rw [List.length_drop, List.length_cons]; omega
        rw [splitLoopF_fuel bs eos b xs.length
          ((x :: xs).drop (splitPosOf bs (argwhereEq (x :: xs) b) + 1)).length _ hle le_rfl]
    · simp only [List.length_cons] at hl
      simp [hl]

/-- Claim C10 — a raw sequence of length at most `BLOCK_SIZE - 1` is emitted
verbatim as a single sub-sequence with the terminator appended, of recorded
length the raw length plus one, hence at most `BLOCK_SIZE`; at raw length
`BLOCK_SIZE - 1` it fills a block exactly. -/
theorem splitSeq_short_exact (bs eos b : Nat) (t : List Nat)
    (hbs : 1 ≤ bs) (hlen : t.length ≤ bs - 1) :
    splitSeq bs eos b t = [(t ++ [eos], t.length + 1)] ∧
    (t ++ [eos]).length = t.length + 1 ∧
    t.length + 1 ≤ bs ∧
    (t.length = bs - 1 → t.length + 1 = bs) := by
  refine ⟨by simp [splitSeq, hlen], by simp, by omega, by omega⟩

/-- Witness for C10 at `BLOCK_SIZE = 8`: a raw sequence of 7 tokens becomes
one 8-token sub-sequence. -/
theorem splitSeq_short_exact_witness :
    splitSeq 8 99 13 [1, 2, 3, 4, 5, 6, 7] = [([1, 2, 3, 4, 5, 6, 7, 99], 8)] ∧
    ([1, 2, 3, 4, 5, 6, 7] ++ [99] : List Nat).length = [1, 2, 3, 4, 5, 6, 7].length + 1 ∧
    ([1, 2, 3, 4, 5, 6, 7] : List Nat).length + 1 ≤ 8 ∧
    (([1, 2, 3, 4, 5, 6, 7] : List Nat).length = 8 - 1 →
      ([1, 2, 3, 4, 5, 6, 7] : List Nat).length + 1 = 8) := by
  have h := splitSeq_short_exact 8 99 13 [1, 2, 3, 4, 5, 6, 7] (by decide) (by decide)
  simpa using h

lemma splitPos_lt_len {bs b : Nat} {t : List Nat} (h : bs - 1 < t.length) :
    splitPosOf bs (argwhereEq t b) < t.length := by
  rcases splitPosOf_lt_or_zero bs (argwhereEq t b) with h1 | h1 <;> omega

lemma take_succ_getD {t : List Nat} {n : Nat} (h : n < t.length) :
    t.take n ++ [t.getD n 0] = t.take (n + 1) := by
  rw [List.take_succ, List.getD_eq_getElem?_getD, List.getElem?_eq_getElem h]
  simp

/-- Claim C3 (amended) — tokens are dropped by the splitter in exactly two
ways: (a) the loop stops and discards the whole current remainder as soon as
it is at most `BLOCK_SIZE - 1` tokens long or contains no boundary token at
all (so a short remainder is dropped even when it still holds a boundary
token before the capacity limit), and (b) at every cut the token at the cut
position is consumed and replaced by the appended terminator.  Every other
consumed token is carried verbatim, in order: restoring one cut token per
piece and re-joining the pieces with the dropped remainder reconstructs the
input exactly. -/
theorem splitRun_drop_policy (bs eos b : Nat) (t : List Nat) :
    ((splitRun bs eos b t).2.length ≤ bs - 1 ∨ b ∉ (splitRun bs eos b t).2) ∧
    ∃ cutToks : List Nat,
      cutToks.length = (splitRun bs eos b t).1.length ∧
      ((((splitRun bs eos b t).1.map (fun p => p.1.dropLast)).zip cutToks).map
          (fun q => q.1 ++ [q.2])).flatten ++ (splitRun bs eos b t).2 = t := by
  suffices H : ∀ N (t : List Nat), t.length ≤ N →
      ((splitRun bs eos b t).2.length ≤ bs - 1 ∨ b ∉ (splitRun bs eos b t).2) ∧
      ∃ cutToks : List Nat,
        cutToks.length = (splitRun bs eos b t).1.length ∧
        ((((splitRun bs eos b t).1.map (fun p => p.1.dropLast)).zip cutToks).map
            (fun q => q.1 ++ [q.2])).flatten ++ (splitRun bs eos b t).2 = t by
    exact H t.length t le_rfl
  intro N
  induction N with
  | zero =>
    intro t ht
    have ht0 : t = [] := List.eq_nil_of_length_eq_zero (Nat.le_zero.mp ht)
    subst ht0
    rw [splitRun_eq]
    simp
  | succ N ih =>
    intro t ht
    rw [splitRun_eq]
    by_cases hl : bs - 1 < t.length
    · by_cases ha : argwhereEq t b = []
      · simp only [if_pos hl, if_pos ha]
        exact ⟨Or.inr (argwhereEq_eq_nil.mp ha), [], by simp, by simp⟩
      · simp only [if_pos hl, if_neg ha]
        have hsp : splitPosOf bs (argwhereEq t b) < t.length := splitPos_lt_len hl
        have hrec := ih (t.drop (splitPosOf bs (argwhereEq t b) + 1))
          (by rw [List.length_drop]; omega)
        obtain ⟨hdrop, hex⟩ := hrec
        obtain ⟨cut2, hlen2, heq2⟩ := hex
        refine ⟨hdrop, t.getD (splitPosOf bs (argwhereEq t b)) 0 :: cut2, by simp [hlen2], ?_⟩
        simp only [List.map_cons, List.zip_cons_cons, List.flatten_cons, List.dropLast_concat]
        rw [List.append_assoc, heq2, take_succ_getD hsp, List.take_append_drop]
    · simp only [if_neg hl]
      exact ⟨Or.inl (by omega), [], by simp, by simp⟩

/-- The concrete input refuting claim C3 as stated: 600 tokens, boundary
token 13 at positions 400 and 550, all other tokens pairwise distinct. -/
def t600 : List Nat := (List.range 600).map (fun i => if i = 400 ∨ i = 550 then 13 else i + 1000)

set_option maxRecDepth 100000 in
set_option maxHeartbeats 2000000 in
/-- Claim C3 (counterexample) — on `t600` with the repository constants
(`BLOCK_SIZE = 512`), the splitter emits a single piece covering tokens
0..399 and then DROPS the 199-token remainder even though that remainder
contains the boundary token 13 well before the capacity limit (at offset
149 < 511); in particular token 1402 of the input is carried into no
emitted sub-sequence.  This contradicts the claim that tokens are dropped
only when no boundary token exists before the capacity limit in the current
remainder. -/
theorem splitRun_drops_splittable_remainder :
    (splitRun 512 50256 13 t600).1 = [(t600.take 400 ++ [50256], 401)] ∧
    (splitRun 512 50256 13 t600).2 = t600.drop 401 ∧
    (t600.drop 401).length = 199 ∧
    (13 : Nat) ∈ (t600.drop 401).take 511 ∧
    (1402 : Nat) ∈ t600 ∧
    ∀ p ∈ (splitRun 512 50256 13 t600).1, (1402 : Nat) ∉ p.1 := by
  refine ⟨by decide, by decide, by decide, by decide, by decide, by decide⟩

/-- The position of the cut chosen by one splitter iteration. -/
def cutPos (bs b : Nat) (t : List Nat) : Nat := splitPosOf bs (argwhereEq t b)

lemma splitPosOf_spec (bs b : Nat) (t : List Nat) :
    (t.get? (cutPos bs b t) = some b ∧ cutPos bs b t < bs - 1 ∧
      ∀ j, t.get? j = some b → j < bs - 1 → j ≤ cutPos bs b t) ∨
    (cutPos bs b t = 0 ∧ ∀ j, t.get? j = some b → ¬ j < bs - 1) := by
  have hM : cutPos bs b t
      = ((argwhereEq t b).map (fun p => if p < bs - 1 then p else 0)).foldr max 0 := rfl
  have hmax : ∀ j, t.get? j = some b → j < bs - 1 → j ≤ cutPos bs b t := by
    intro j hj hjlt
    have hmem : (if j < bs - 1 then j else 0)
        ∈ (argwhereEq t b).map (fun p => if p < bs - 1 then p else 0) :=
      List.mem_map.mpr ⟨j, mem_argwhereEq.mpr hj, rfl⟩
    have h2 := le_foldr_max _ _ hmem
    rw [if_pos hjlt] at h2
    rw [hM]
    exact h2
  by_cases H : ∃ p ∈ argwhereEq t b, p < bs - 1
  · obtain ⟨p, hp, hplt⟩ := H
    have hple : p ≤ cutPos bs b t := hmax p (mem_argwhereEq.mp hp) hplt
    left
    rcases foldr_max_mem_or_zero ((argwhereEq t b).map (fun p => if p < bs - 1 then p else 0))
        with hm | hm
    · rcases List.mem_map.mp hm with ⟨p0, hp0, hfp0⟩
      by_cases hp0lt : p0 < bs - 1
      · rw [if_pos hp0lt] at hfp0
        have hcp : cutPos bs b t = p0 := by rw [hM]; exact hfp0.symm
        refine ⟨?_, ?_, hmax⟩
        · rw [hcp]; exact mem_argwhereEq.mp hp0
        · rw [hcp]; exact hp0lt
      · rw [if_neg hp0lt] at hfp0
        have hcp : cutPos bs b t = 0 := by rw [hM]; exact hfp0.symm
        have hp' : p = 0 := by omega
        refine ⟨?_, ?_, hmax⟩
        · rw [hcp, ← hp']; exact mem_argwhereEq.mp hp
        · omega
    · have hcp : cutPos bs b t = 0 := by rw [hM]; exact hm
      have hp' : p = 0 := by omega
      refine ⟨?_, ?_, hmax⟩
      · rw [hcp, ← hp']; exact mem_argwhereEq.mp hp
      · omega
  · push_neg at H
    right
    refine ⟨?_, ?_⟩
    · rcases foldr_max_mem_or_zero ((argwhereEq t b).map (fun p => if p < bs - 1 then p else 0))
          with hm | hm
      · rcases List.mem_map.mp hm with ⟨p0, hp0, hfp0⟩
        have hge := H p0 hp0
        rw [if_neg (by omega)] at hfp0
        rw [hM]; exact hfp0.symm
      · rw [hM]; exact hm
    · intro j hj hjlt
      have := H j (mem_argwhereEq.mpr hj)
      omega

/-- The concrete scenario-3 input: 20 tokens, boundary token 13 at positions
4, 9 and 15, all other tokens pairwise distinct. -/
def t20 : List Nat :=
  [100, 101, 102, 103, 13, 105, 106, 107, 108, 13, 110, 111, 112, 113, 114, 13, 116, 117, 118, 119]

/-- Claim C4 (counterexample) — with `BLOCK_SIZE = 8` on the length-20
sequence with boundary tokens at positions [4, 9, 15], the first cut piece
is `[100, 101, 102, 103, 99]` (tokens 0..3 plus the appended terminator 99):
it has the claimed length 5, but it does NOT include the boundary token 13 —
the boundary token at the cut position is consumed and replaced by the
terminator, refuting the claim that the cut piece includes it. -/
theorem splitRun_cut_excludes_boundary :
    (splitRun 8 99 13 t20).1.head? = some ([100, 101, 102, 103, 99], 5) ∧
    (13 : Nat) ∉ ([100, 101, 102, 103, 99] : List Nat) := by
  exact ⟨by decide, by decide⟩

/-- Claim C4 (amended) — each cut of the splitter is at `cutPos`, which is
either the LAST boundary-token occurrence STRICTLY before position
`BLOCK_SIZE - 1` of the current remainder, or position 0 when every
boundary occurrence lies at or beyond `BLOCK_SIZE - 1`; the cut piece is
the tokens strictly before the cut position with the terminator appended
(the boundary token itself is dropped, not included), the recorded length
is `cutPos + 1`, and processing continues on the tokens after the cut
position.  On the concrete scenario (`BLOCK_SIZE = 8`, boundaries at
[4, 9, 15] in a length-20 sequence) the first piece has length 5 and the
remainder starts at index 5. -/
theorem splitRun_cut_characterization (bs eos b : Nat) (t : List Nat)
    (hlong : bs - 1 < t.length) (hmem : b ∈ t) :
    splitRun bs eos b t =
      ((t.take (cutPos bs b t) ++ [eos], cutPos bs b t + 1)
          :: (splitRun bs eos b (t.drop (cutPos bs b t + 1))).1,
        (splitRun bs eos b (t.drop (cutPos bs b t + 1))).2) ∧
    ((t.get? (cutPos bs b t) = some b ∧ cutPos bs b t < bs - 1 ∧
        ∀ j, t.get? j = some b → j < bs - 1 → j ≤ cutPos bs b t) ∨
      (cutPos bs b t = 0 ∧ ∀ j, t.get? j = some b → ¬ j < bs - 1)) ∧
    splitRun 8 99 13 t20 =
      ((t20.take 4 ++ [99], 5) :: (splitRun 8 99 13 (t20.drop 5)).1,
        (splitRun 8 99 13 (t20.drop 5)).2) := by
  have ha : ¬ argwhereEq t b = [] := fun h => (argwhereEq_eq_nil.mp h) hmem
  refine ⟨?_, splitPosOf_spec bs b t, by decide⟩
  rw [splitRun_eq]
  simp only [if_pos hlong, if_neg ha]
  rfl

/-- Witness for the amended C4, applied at the concrete scenario input. -/
theorem splitRun_cut_characterization_witness :
    splitRun 8 99 13 t20 =
      ((t20.take (cutPos 8 13 t20) ++ [99], cutPos 8 13 t20 + 1)
          :: (splitRun 8 99 13 (t20.drop (cutPos 8 13 t20 + 1))).1,
        (splitRun 8 99 13 (t20.drop (cutPos 8 13 t20 + 1))).2) ∧
    ((t20.get? (cutPos 8 13 t20) = some 13 ∧ cutPos 8 13 t20 < 8 - 1 ∧
        ∀ j, t20.get? j = some 13 → j < 8 - 1 → j ≤ cutPos 8 13 t20) ∨
      (cutPos 8 13 t20 = 0 ∧ ∀ j, t20.get? j = some 13 → ¬ j < 8 - 1)) ∧
    splitRun 8 99 13 t20 =
      ((t20.take 4 ++ [99], 5) :: (splitRun 8 99 13 (t20.drop 5)).1,
        (splitRun 8 99 13 (t20.drop 5)).2) :=
  splitRun_cut_characterization 8 99 13 t20 (by decide) (by decide)

/-! ## Packer lemmas -/

lemma mem_withIndexFrom : ∀ (ls : List Nat) (n : Nat) (p : Nat × Nat),
    p ∈ withIndexFrom n ls → n ≤ p.2 ∧ ls.get? (p.2 - n) = some p.1 := by
  intro ls
  induction ls with
  | nil => intro n p hp; simp [withIndexFrom] at hp
  | cons l ls ih =>
    intro n p hp
    simp only [withIndexFrom, List.mem_cons] at hp
    rcases hp with rfl | hp
    · exact ⟨le_rfl, by simp⟩
    · obtain ⟨h1, h2⟩ := ih (n + 1) p hp
      refine ⟨by omega, ?_⟩
      have hd : p.2 - n = (p.2 - (n + 1)) + 1 := by omega
      rw [hd]
      simpa using h2

lemma insertDesc_perm (x : Nat × Nat) : ∀ l, (insertDesc x l).Perm (x :: l) := by
  intro l
  induction l with
  | nil => exact List.Perm.refl _
  | cons y ys ih =>
    simp only [insertDesc]
    by_cases h : y.1 ≤ x.1
    · rw [if_pos h]
    · rw [if_neg h]
      exact (ih.cons y).trans (List.Perm.swap x y ys)

lemma sortByLenDesc_perm : ∀ l, (sortByLenDesc l).Perm l := by
  intro l
  induction l with
  | nil => exact List.Perm.refl _
  | cons x xs ih =>
    have hstep : sortByLenDesc (x :: xs) = insertDesc x (sortByLenDesc xs) := rfl
    rw [hstep]
    exact (insertDesc_perm x _).trans (ih.cons x)

lemma mem_indexedLengths {lens : List Nat} {p : Nat × Nat} (hp : p ∈ indexedLengths lens) :
    lens.get? p.2 = some p.1 := by
  have hmem : p ∈ withIndexFrom 0 lens :=
    ((sortByLenDesc_perm (withIndexFrom 0 lens)).mem_iff).mp hp
  have := (mem_withIndexFrom lens 0 p hmem).2
  simpa using this

lemma insertDesc_pairwise (x : Nat × Nat) :
    ∀ l, (∀ y ∈ l, x.2 < y.2) →
      List.Pairwise (fun a b : Nat × Nat => b.1 < a.1 ∨ (a.1 = b.1 ∧ a.2 < b.2)) l →
      List.Pairwise (fun a b : Nat × Nat => b.1 < a.1 ∨ (a.1 = b.1 ∧ a.2 < b.2))
        (insertDesc x l) := by
  intro l
  induction l with
  | nil => intro _ _; simp [insertDesc]
  | cons y ys ih =>
    intro hx hp
    rw [List.pairwise_cons] at hp
    obtain ⟨hy, hys⟩ := hp
    simp only [insertDesc]
    by_cases h : y.1 ≤ x.1
    · rw [if_pos h]
      rw [List.pairwise_cons]
      refine ⟨?_, List.pairwise_cons.mpr ⟨hy, hys⟩⟩
      intro z hz
      have hzle : z.1 ≤ x.1 := by
        rcases List.mem_cons.mp hz with rfl | hz2
        · exact h
        · rcases hy z hz2 with h1 | h1
          · omega
          · omega
      by_cases hlt : z.1 < x.1
      · exact Or.inl hlt
      · exact Or.inr ⟨by omega, hx z hz⟩
    · rw [if_neg h]
      rw [List.pairwise_cons]
      refine ⟨?_, ih (fun y2 hy2 => hx y2 (List.mem_cons_of_mem y hy2)) hys⟩
      intro z hz
      have hz2 := (insertDesc_perm x ys).mem_iff.mp hz
      rcases List.mem_cons.mp hz2 with rfl | hz3
      · exact Or.inl (by omega)
      · exact hy z hz3

lemma withIndexFrom_pairwise : ∀ (ls : List Nat) (n : Nat),
    List.Pairwise (fun a b : Nat × Nat => a.2 < b.2) (withIndexFrom n ls) := by
  intro ls
  induction ls with
  | nil => intro n; simp [withIndexFrom]
  | cons l ls ih =>
    intro n
    simp only [withIndexFrom]
    rw [List.pairwise_cons]
    refine ⟨?_, ih (n + 1)⟩
    intro y hy
    have := (mem_withIndexFrom ls (n + 1) y hy).1
    show n < y.2
    omega

lemma sortByLenDesc_pairwise : ∀ l : List (Nat × Nat),
    List.Pairwise (fun a b : Nat × Nat => a.2 < b.2) l →
    List.Pairwise (fun a b : Nat × Nat => b.1 < a.1 ∨ (a.1 = b.1 ∧ a.2 < b.2))
      (sortByLenDesc l) := by
  intro l
  induction l with
  | nil => intro _; simp [sortByLenDesc]
  | cons x xs ih =>
    intro hp
    rw [List.pairwise_cons] at hp
    obtain ⟨hx, hxs⟩ := hp
    have hstep : sortByLenDesc (x :: xs) = insertDesc x (sortByLenDesc xs) := rfl
    rw [hstep]
    refine insertDesc_pairwise x _ ?_ (ih hxs)
    intro y hy
    exact hx y ((sortByLenDesc_perm xs).mem_iff.mp hy)

/-- Claim C9 — the Packer's ordering pass is deterministic and stable: the
embedding is a pure function of the input batch (two runs on equal inputs
agree definitionally), and `indexed_lengths` is exactly the unique
arrangement of the enumerated `(length, index)` pairs that is strictly
sorted by descending length with ties in ascending original-index order
(stable descending sort), as a permutation of the enumeration. -/
theorem indexedLengths_stable_sorted (lens : List Nat) :
    (indexedLengths lens).Perm (withIndexFrom 0 lens) ∧
    List.Pairwise (fun a b : Nat × Nat => b.1 < a.1 ∨ (a.1 = b.1 ∧ a.2 < b.2))
      (indexedLengths lens) :=
  ⟨sortByLenDesc_perm _, sortByLenDesc_pairwise _ (withIndexFrom_pairwise lens 0)⟩

/-- Total occupied length of a bin: the sum of its recorded member lengths. -/
def sumLens (m : List (Nat × Nat)) : Nat := (m.map Prod.fst).sum

lemma sumLens_append_single (m : List (Nat × Nat)) (li : Nat × Nat) :
    sumLens (m ++ [li]) = sumLens m + li.1 := by
  simp [sumLens]

lemma tryPlace_mem (li : Nat × Nat) :
    ∀ (bins bins2 : List BinT), tryPlace li bins = some bins2 →
      ∀ bin ∈ bins2, bin ∈ bins ∨
        ∃ b0 ∈ bins, (li.1 : Int) ≤ b0.2 ∧ bin = (b0.1 ++ [li], b0.2 - (li.1 : Int)) := by
  intro bins
  induction bins with
  | nil => intro bins2 h; simp [tryPlace] at h
  | cons b0 rest ih =>
    intro bins2 h bin hbin
    simp only [tryPlace] at h
    by_cases hfit : (li.1 : Int) ≤ b0.2
    · rw [if_pos hfit] at h
      obtain rfl : (b0.1 ++ [li], b0.2 - (li.1 : Int)) :: rest = bins2 := by simpa using h
      rcases List.mem_cons.mp hbin with rfl | hbin2
      · exact Or.inr ⟨b0, List.mem_cons_self _ _, hfit, rfl⟩
      · exact Or.inl (List.mem_cons_of_mem _ hbin2)
    · rw [if_neg hfit] at h
      cases hr : tryPlace li rest with
      | none => rw [hr] at h; simp at h
      | some rest2 =>
        rw [hr] at h
        obtain rfl : b0 :: rest2 = bins2 := by simpa using h
        rcases List.mem_cons.mp hbin with rfl | hbin2
        · exact Or.inl (List.mem_cons_self _ _)
        · rcases ih rest2 hr bin hbin2 with h1 | ⟨b1, hb1, hfit1, heq⟩
          · exact Or.inl (List.mem_cons_of_mem _ h1)
          · exact Or.inr ⟨b1, List.mem_cons_of_mem _ hb1, hfit1, heq⟩

lemma packStep_mem (bs : Nat) (bins : List BinT) (li : Nat × Nat) :
    ∀ bin ∈ packStep bs bins li, bin ∈ bins ∨
      (∃ b0 ∈ bins, (li.1 : Int) ≤ b0.2 ∧ bin = (b0.1 ++ [li], b0.2 - (li.1 : Int))) ∨
      bin = ([li], (bs : Int) - (li.1 : Int)) := by
  intro bin hbin
  unfold packStep at hbin
  cases hr : tryPlace li bins with
  | some bins2 =>
    rw [hr] at hbin
    simp only at hbin
    rcases tryPlace_mem li bins bins2 hr bin hbin with h | h
    · exact Or.inl h
    · exact Or.inr (Or.inl h)
  | none =>
    rw [hr] at hbin
    simp only at hbin
    rcases List.mem_append.mp hbin with h | h
    · exact Or.inl h
    · simp at h
      exact Or.inr (Or.inr h)

lemma foldl_packStep_inv (bs : Nat) (P : BinT → Prop) :
    ∀ (il : List (Nat × Nat)) (bins0 : List BinT),
      (∀ bin ∈ bins0, P bin) →
      (∀ li ∈ il, P ([li], (bs : Int) - (li.1 : Int))) →
      (∀ li ∈ il, ∀ bin : BinT, P bin → (li.1 : Int) ≤ bin.2 →
        P (bin.1 ++ [li], bin.2 - (li.1 : Int))) →
      ∀ bin ∈ il.foldl (packStep bs) bins0, P bin := by
  intro il
  induction il with
  | nil => intro bins0 h0 _ _ bin hbin; exact h0 bin hbin
  | cons li rest ih =>
    intro bins0 h0 hnew hadd bin hbin
    rw [List.foldl_cons] at hbin
    refine ih (packStep bs bins0 li) ?_
      (fun x hx => hnew x (List.mem_cons_of_mem _ hx))
      (fun x hx => hadd x (List.mem_cons_of_mem _ hx)) bin hbin
    intro bin2 hbin2
    rcases packStep_mem bs bins0 li bin2 hbin2 with h | h | h
    · exact h0 _ h
    · obtain ⟨b0, hb0, hfit, rfl⟩ := h
      exact hadd li (List.mem_cons_self _ _) _ (h0 _ hb0) hfit
    · rw [h]
      exact hnew li (List.mem_cons_self _ _)

/-- The central packing invariant: every bin produced by `pack` records a
free capacity equal to `BLOCK_SIZE` minus its occupied length, that free
capacity is nonnegative whenever all input lengths are at most
`BLOCK_SIZE`, and every member pair comes from the enumeration of the
input lengths. -/
lemma pack_bins_inv (bs : Nat) (lens : List Nat) (hbound : ∀ l ∈ lens, l ≤ bs) :
    ∀ bin ∈ pack bs lens,
      bin.2 = (bs : Int) - (sumLens bin.1 : Int) ∧ 0 ≤ bin.2 ∧
      ∀ li ∈ bin.1, lens.get? li.2 = some li.1 := by
  intro bin hbin
  refine foldl_packStep_inv bs
    (fun b => b.2 = (bs : Int) - (sumLens b.1 : Int) ∧ 0 ≤ b.2 ∧
      ∀ li ∈ b.1, lens.get? li.2 = some li.1)
    (indexedLengths lens) [] (by simp) ?_ ?_ bin hbin
  · intro li hli
    have hget := mem_indexedLengths hli
    have hle : li.1 ≤ bs := hbound li.1 (List.get?_mem hget)
    refine ⟨by simp [sumLens], by push_cast; omega, ?_⟩
    intro li2 hli2
    have hli2' : li2 = li := by simpa using hli2
    rw [hli2']
    exact hget
  · intro li hli bin2 hP hfit
    obtain ⟨h1, h2, h3⟩ := hP
    refine ⟨?_, by omega, ?_⟩
    · rw [sumLens_append_single]
      push_cast
      omega
    · intro li2 hli2
      rcases List.mem_append.mp hli2 with h | h
      · exact h3 li2 h
      · have hli2' : li2 = li := by simpa using h
        rw [hli2']
        exact mem_indexedLengths hli

lemma binIds_length (tokenized : List (List Nat)) (m : List (Nat × Nat))
    (h : ∀ li ∈ m, (tokenized.getD li.2 []).length = li.1) :
    (binIds tokenized m).length = sumLens m := by
  unfold binIds sumLens
  rw [List.length_flatten, List.map_map]
  congr 1
  exact List.map_congr_left h

lemma binPos_length (m : List (Nat × Nat)) : (binPos m).length = sumLens m := by
  unfold binPos sumLens
  rw [List.length_flatten, List.map_map]
  congr 1
  exact List.map_congr_left (fun li _ => List.length_range li.1)

lemma padTo_eq_append {bs pad : Nat} {xs : List Nat} (h : xs.length ≤ bs) :
    padTo bs pad xs = xs ++ List.replicate (bs - xs.length) pad := by
  unfold padTo
  by_cases hlt : xs.length < bs
  · rw [if_pos hlt]
  · rw [if_neg hlt]
    have hz : bs - xs.length = 0 := by omega
    simp [hz]

lemma padTo_length {bs pad : Nat} {xs : List Nat} (h : xs.length ≤ bs) :
    (padTo bs pad xs).length = bs := by
  rw [padTo_eq_append h, List.length_append, List.length_replicate]
  omega

/-- Recorded member lengths agree with the fetched sub-sequence lengths when
the packer is run on `tokenized.map List.length`, as `map_to_batch` does. -/
lemma pack_fetch_length (bs : Nat) (tokenized : List (List Nat))
    {bin : BinT} (hbin : bin ∈ pack bs (tokenized.map List.length))
    (hbound : ∀ t ∈ tokenized, t.length ≤ bs) :
    ∀ li ∈ bin.1, (tokenized.getD li.2 []).length = li.1 := by
  have hb : ∀ l ∈ tokenized.map List.length, l ≤ bs := by
    intro l hl
    rcases List.mem_map.mp hl with ⟨t, ht, rfl⟩
    exact hbound t ht
  obtain ⟨-, -, h3⟩ := pack_bins_inv bs (tokenized.map List.length) hb bin hbin
  intro li hli
  have hget := h3 li hli
  rw [List.get?_map] at hget
  cases ht : tokenized.get? li.2 with
  | none => rw [ht] at hget; simp at hget
  | some t =>
    rw [ht] at hget
    have hlen : t.length = li.1 := by simpa using hget
    have hgd : tokenized.getD li.2 [] = t := by
      rw [List.getD_eq_getElem?_getD, ← List.get?_eq_getElem?, ht]
      rfl
    rw [hgd, hlen]

/-- Claim C1 — for a batch of sub-sequences each at most `BLOCK_SIZE` tokens
long (packed, as in `map_to_batch`, with lengths equal to the sub-sequence
lengths), every finalized Block is exactly `BLOCK_SIZE` entries long in both
arrays, its occupied length (the concatenation of its members' token ids)
never exceeds `BLOCK_SIZE`, and everything past the occupied length is
padding: the terminator id in the token array and `0` in the position
array. -/
theorem packer_blocks_padded (bs eos : Nat) (tokenized : List (List Nat))
    (h : ∀ t ∈ tokenized, t.length ≤ bs) :
    ∀ bin ∈ pack bs (tokenized.map List.length),
      (binIds tokenized bin.1).length ≤ bs ∧
      (binPos bin.1).length = (binIds tokenized bin.1).length ∧
      (finalizeBin bs eos tokenized bin.1).1.length = bs ∧
      (finalizeBin bs eos tokenized bin.1).2.length = bs ∧
      (finalizeBin bs eos tokenized bin.1).1
        = binIds tokenized bin.1
          ++ List.replicate (bs - (binIds tokenized bin.1).length) eos ∧
      (finalizeBin bs eos tokenized bin.1).2
        = binPos bin.1 ++ List.replicate (bs - (binPos bin.1).length) 0 := by
  intro bin hbin
  have hbound : ∀ l ∈ tokenized.map List.length, l ≤ bs := by
    intro l hl
    rcases List.mem_map.mp hl with ⟨t, ht, rfl⟩
    exact h t ht
  obtain ⟨h1, h2, -⟩ := pack_bins_inv bs (tokenized.map List.length) hbound bin hbin
  have hfetch := pack_fetch_length bs tokenized hbin h
  have hsum : sumLens bin.1 ≤ bs := by
    rw [h1] at h2
    omega
  have hids : (binIds tokenized bin.1).length = sumLens bin.1 :=
    binIds_length tokenized bin.1 hfetch
  have hpos : (binPos bin.1).length = sumLens bin.1 := binPos_length bin.1
  have hle : (binIds tokenized bin.1).length ≤ bs := by omega
  have hle2 : (binPos bin.1).length ≤ bs := by omega
  exact ⟨hle, by omega, padTo_length hle, padTo_length hle2,
    padTo_eq_append hle, padTo_eq_append hle2⟩

/-- Witness for C1 at a small concrete batch (`BLOCK_SIZE = 8`), at the
single bin the packer produces for it. -/
theorem packer_blocks_padded_witness :
    (binIds [[1, 2, 99], [3, 99]] [(3, 0), (2, 1)]).length ≤ 8 ∧
    (binPos [(3, 0), (2, 1)]).length = (binIds [[1, 2, 99], [3, 99]] [(3, 0), (2, 1)]).length ∧
    (finalizeBin 8 99 [[1, 2, 99], [3, 99]] [(3, 0), (2, 1)]).1.length = 8 ∧
    (finalizeBin 8 99 [[1, 2, 99], [3, 99]] [(3, 0), (2, 1)]).2.length = 8 ∧
    (finalizeBin 8 99 [[1, 2, 99], [3, 99]] [(3, 0), (2, 1)]).1
      = binIds [[1, 2, 99], [3, 99]] [(3, 0), (2, 1)]
        ++ List.replicate (8 - (binIds [[1, 2, 99], [3, 99]] [(3, 0), (2, 1)]).length) 99 ∧
    (finalizeBin 8 99 [[1, 2, 99], [3, 99]] [(3, 0), (2, 1)]).2
      = binPos [(3, 0), (2, 1)]
        ++ List.replicate (8 - (binPos [(3, 0), (2, 1)]).length) 0 :=
  packer_blocks_padded 8 99 [[1, 2, 99], [3, 99]] (by decide) ([(3, 0), (2, 1)], 3) (by decide)

/-- The starting offsets of a bin's members inside its concatenated
position array: 0 for the first member, then shifted by each preceding
member's recorded length. -/
def memberStarts : List (Nat × Nat) → List Nat
  | [] => []
  | li :: rest => 0 :: (memberStarts rest).map (fun s => s + li.1)

lemma binPos_zero_iff : ∀ (m : List (Nat × Nat)), (∀ li ∈ m, 1 ≤ li.1) →
    ∀ j, j < (binPos m).length → ((binPos m).getD j 1 = 0 ↔ j ∈ memberStarts m) := by
  intro m
  induction m with
  | nil => intro _ j hj; simp [binPos] at hj
  | cons li rest ih =>
    intro hpos j hj
    have hone : 1 ≤ li.1 := hpos li (List.mem_cons_self _ _)
    have hbp : binPos (li :: rest) = List.range li.1 ++ binPos rest := by
      simp [binPos]
    rw [hbp] at hj ⊢
    rw [List.length_append, List.length_range] at hj
    by_cases hlt : j < li.1
    · rw [List.getD_append _ _ _ _ (by rw [List.length_range]; exact hlt)]
      have hrg : (List.range li.1).getD j 1 = j := by
        rw [List.getD_eq_getElem?_getD, List.getElem?_range hlt]
        rfl
      rw [hrg]
      simp only [memberStarts, List.mem_cons]
      constructor
      · intro hz
        exact Or.inl hz
      · rintro (hz | hz)
        · exact hz
        · rcases List.mem_map.mp hz with ⟨s, -, hs⟩
          omega
    · rw [List.getD_append_right _ _ _ _ (by rw [List.length_range]; omega)]
      rw [List.length_range]
      have hj2 : j - li.1 < (binPos rest).length := by omega
      rw [ih (fun x hx => hpos x (List.mem_cons_of_mem _ hx)) (j - li.1) hj2]
      simp only [memberStarts, List.mem_cons]
      constructor
      · intro hmem
        right
        exact List.mem_map.mpr ⟨j - li.1, hmem, by omega⟩
      · rintro (hz | hz)
        · omega
        · rcases List.mem_map.mp hz with ⟨s, hs, hsj⟩
          have hsval : s = j - li.1 := by omega
          rw [← hsval]
          exact hs

/-- Claim C8 — for every Block of a packed batch of nonempty sub-sequences
(each at most `BLOCK_SIZE` long, with recorded lengths the sub-sequence
lengths as in `map_to_batch`), the position array is the concatenation of
`range length` for the members in bin-assignment order followed by zero
padding, and within the occupied part an entry is `0` exactly at the
members' starting offsets — positions restart at 0 at each constituent
sub-sequence start and nowhere else. -/
theorem packer_positions_restart (bs eos : Nat) (tokenized : List (List Nat))
    (h : ∀ t ∈ tokenized, 1 ≤ t.length ∧ t.length ≤ bs) :
    ∀ bin ∈ pack bs (tokenized.map List.length),
      binPos bin.1 = (bin.1.map (fun li => List.range li.1)).flatten ∧
      (finalizeBin bs eos tokenized bin.1).2
        = binPos bin.1 ++ List.replicate (bs - (binPos bin.1).length) 0 ∧
      ∀ j, j < (binPos bin.1).length →
        ((binPos bin.1).getD j 1 = 0 ↔ j ∈ memberStarts bin.1) := by
  intro bin hbin
  have hbound : ∀ l ∈ tokenized.map List.length, l ≤ bs := by
    intro l hl
    rcases List.mem_map.mp hl with ⟨t, ht, rfl⟩
    exact (h t ht).2
  obtain ⟨h1, h2, h3⟩ := pack_bins_inv bs (tokenized.map List.length) hbound bin hbin
  have hone : ∀ li ∈ bin.1, 1 ≤ li.1 := by
    intro li hli
    have hget := h3 li hli
    rw [List.get?_map] at hget
    cases ht : tokenized.get? li.2 with
    | none => rw [ht] at hget; simp at hget
    | some t =>
      rw [ht] at hget
      have hlen2 : t.length = li.1 := by simpa using hget
      have := (h t (List.get?_mem ht)).1
      omega
  have hsum : sumLens bin.1 ≤ bs := by
    rw [h1] at h2
    omega
  have hle2 : (binPos bin.1).length ≤ bs := by
    rw [binPos_length]
    omega
  exact ⟨rfl, padTo_eq_append hle2, binPos_zero_iff bin.1 hone⟩

/-- Witness for C8 at a small concrete batch (`BLOCK_SIZE = 8`), at the
single bin the packer produces for it. -/
theorem packer_positions_restart_witness :
    binPos [(3, 1), (2, 0)] = ([(3, 1), (2, 0)].map (fun li => List.range li.1)).flatten ∧
    (finalizeBin 8 99 [[1, 99], [2, 3, 99]] [(3, 1), (2, 0)]).2
      = binPos [(3, 1), (2, 0)] ++ List.replicate (8 - (binPos [(3, 1), (2, 0)]).length) 0 ∧
    ∀ j, j < (binPos [(3, 1), (2, 0)]).length →
      ((binPos [(3, 1), (2, 0)]).getD j 1 = 0 ↔ j ∈ memberStarts [(3, 1), (2, 0)]) :=
  packer_positions_restart 8 99 [[1, 99], [2, 3, 99]] (by decide) ([(3, 1), (2, 0)], 3) (by decide)

/-- Follows the spec's words: the index of the FIRST bin (in creation
order) whose free capacity is at least the given length. -/
def firstFitIdx (len : Nat) : List BinT → Option Nat
  | [] => none
  | bin :: rest =>
    if (len : Int) ≤ bin.2 then some 0 else (firstFitIdx len rest).map (fun i => i + 1)

/-- Follows the spec's words for one packing step: place the pair into the
first bin whose free capacity is at least its length (updating that bin in
place), and open a new bin with free capacity `BLOCK_SIZE - length` when no
bin fits. -/
def packStepSpec (bs : Nat) (bins : List BinT) (li : Nat × Nat) : List BinT :=
  match firstFitIdx li.1 bins with
  | some i =>
    bins.set i ((bins.getD i ([], 0)).1 ++ [li], (bins.getD i ([], 0)).2 - (li.1 : Int))
  | none => bins ++ [([li], (bs : Int) - (li.1 : Int))]

lemma tryPlace_eq_spec (li : Nat × Nat) :
    ∀ bins : List BinT,
      tryPlace li bins = (firstFitIdx li.1 bins).map
        (fun i => bins.set i
          ((bins.getD i ([], 0)).1 ++ [li], (bins.getD i ([], 0)).2 - (li.1 : Int))) := by
  intro bins
  induction bins with
  | nil => rfl
  | cons b0 rest ih =>
    simp only [tryPlace, firstFitIdx]
    by_cases hfit : (li.1 : Int) ≤ b0.2
    · rw [if_pos hfit, if_pos hfit]
      simp
    · rw [if_neg hfit, if_neg hfit]
      cases hr : firstFitIdx li.1 rest with
      | none =>
        rw [hr] at ih
        simp only [Option.map_none'] at ih
        rw [ih]
        rfl
      | some i =>
        rw [hr] at ih
        simp only [Option.map_some'] at ih
        rw [ih]
        simp only [Option.map_some']
        rfl

lemma firstFitIdx_least (len : Nat) :
    ∀ (bins : List BinT) (i : Nat), firstFitIdx len bins = some i →
      i < bins.length ∧ (len : Int) ≤ (bins.getD i ([], 0)).2 ∧
      ∀ j, j < i → ¬ (len : Int) ≤ (bins.getD j ([], 0)).2 := by
  intro bins
  induction bins with
  | nil => intro i h; simp [firstFitIdx] at h
  | cons b0 rest ih =>
    intro i h
    simp only [firstFitIdx] at h
    by_cases hfit : (len : Int) ≤ b0.2
    · rw [if_pos hfit] at h
      obtain rfl : 0 = i := by simpa using h
      exact ⟨by simp, by simpa using hfit, fun j hj => by omega⟩
    · rw [if_neg hfit] at h
      cases hr : firstFitIdx len rest with
      | none => rw [hr] at h; simp at h
      | some i2 =>
        rw [hr] at h
        obtain rfl : i2 + 1 = i := by simpa using h
        obtain ⟨hl, hf, hleast⟩ := ih i2 hr
        refine ⟨by simpa using hl, by simpa using hf, ?_⟩
        intro j hj
        cases j with
        | zero => simpa using hfit
        | succ j2 =>
          rw [List.getD_cons_succ]
          exact hleast j2 (by omega)

lemma firstFitIdx_none (len : Nat) :
    ∀ bins : List BinT, firstFitIdx len bins = none →
      ∀ j, j < bins.length → ¬ (len : Int) ≤ (bins.getD j ([], 0)).2 := by
  intro bins
  induction bins with
  | nil => intro _ j hj; simp at hj
  | cons b0 rest ih =>
    intro h j hj
    simp only [firstFitIdx] at h
    by_cases hfit : (len : Int) ≤ b0.2
    · rw [if_pos hfit] at h
      simp at h
    · rw [if_neg hfit] at h
      have hr : firstFitIdx len rest = none := by
        cases hr2 : firstFitIdx len rest with
        | none => rfl
        | some i2 => rw [hr2] at h; simp at h
      cases j with
      | zero => simpa using hfit
      | succ j2 =>
        rw [List.getD_cons_succ]
        exact ih hr j2 (by simpa using hj)

/-- Claim C5 — each packing step is exactly first-fit placement: it equals
the spec-side step that puts the sequence into the first (least-index,
creation-order) existing bin whose free capacity is at least its length and
opens a new bin with free capacity `BLOCK_SIZE - length` otherwise; and on
the concrete scenario (`BLOCK_SIZE = 8`, lengths [5, 3, 3, 2]) the packer
produces exactly 2 bins with occupied lengths [8, 5]. -/
theorem packStep_first_fit :
    (∀ (bs : Nat) (bins : List BinT) (li : Nat × Nat),
      packStep bs bins li = packStepSpec bs bins li) ∧
    (∀ (len : Nat) (bins : List BinT) (i : Nat), firstFitIdx len bins = some i →
      i < bins.length ∧ (len : Int) ≤ (bins.getD i ([], 0)).2 ∧
      ∀ j, j < i → ¬ (len : Int) ≤ (bins.getD j ([], 0)).2) ∧
    (∀ (len : Nat) (bins : List BinT), firstFitIdx len bins = none →
      ∀ j, j < bins.length → ¬ (len : Int) ≤ (bins.getD j ([], 0)).2) ∧
    (pack 8 [5, 3, 3, 2]).map (fun bin => sumLens bin.1) = [8, 5] ∧
    (pack 8 [5, 3, 3, 2]).length = 2 := by
  refine ⟨?_, firstFitIdx_least, firstFitIdx_none, by decide, by decide⟩
  intro bs bins li
  unfold packStep packStepSpec
  rw [tryPlace_eq_spec li bins]
  cases firstFitIdx li.1 bins with
  | none => rfl
  | some i => rfl

/-- Witness for C5: the first-fit step and the least-index characterization
applied at a concrete bin state. -/
theorem packStep_first_fit_witness :
    packStep 8 [([(5, 0), (3, 1)], 0), ([(3, 2)], 5)] (2, 3)
      = packStepSpec 8 [([(5, 0), (3, 1)], 0), ([(3, 2)], 5)] (2, 3) ∧
    (1 < ([([(5, 0), (3, 1)], 0), ([(3, 2)], 5)] : List BinT).length ∧
      ((2 : Nat) : Int)
        ≤ (([([(5, 0), (3, 1)], 0), ([(3, 2)], 5)] : List BinT).getD 1 ([], 0)).2 ∧
      ∀ j, j < 1 → ¬ ((2 : Nat) : Int)
        ≤ (([([(5, 0), (3, 1)], 0), ([(3, 2)], 5)] : List BinT).getD j ([], 0)).2) :=
  ⟨packStep_first_fit.1 8 [([(5, 0), (3, 1)], 0), ([(3, 2)], 5)] (2, 3),
    packStep_first_fit.2.1 2 [([(5, 0), (3, 1)], 0), ([(3, 2)], 5)] 1 (by decide)⟩

/-- An un-split over-capacity sequence: 513 tokens with `BLOCK_SIZE = 512`. -/
def overlong : List Nat := List.replicate 513 7

set_option maxRecDepth 100000 in
set_option maxHeartbeats 1000000 in
/-- Claim C6 (counterexample) — a batch whose only sequence is 513 tokens
long (over `BLOCK_SIZE = 512`) flows through the Packer with NO error: the
single bin yields an un-padded 513-entry Block, the rest-flush stacks it
successfully (all blocks of the flush share the same length), and an
over-capacity Block is silently emitted.  This refutes the claim that the
Packer fails fast on a sequence longer than `BLOCK_SIZE`. -/
theorem packer_silently_emits_overlong_block :
    mapToBatchShards BLOCK_SIZE SLICE_SIZE 50256 [overlong] ([overlong].map List.length)
      = [some [overlong]] ∧
    BLOCK_SIZE < overlong.length ∧
    ∀ sh ∈ mapToBatchShards BLOCK_SIZE SLICE_SIZE 50256 [overlong] ([overlong].map List.length),
      sh.isSome = true := by
  exact ⟨by decide, by decide, by decide⟩

set_option maxRecDepth 100000 in
set_option maxHeartbeats 1000000 in
/-- Claim C6 (amended) — the Packer itself never checks capacity: an
over-capacity array is left un-truncated and un-padded by the padding step,
and an error surfaces only at shard-flush time, exactly when the flushed
Blocks do not all share one length (the stack shape check); a flush whose
Blocks all have the same length — e.g. a batch whose only Block is an
over-capacity one — is written silently.  Mixing an over-long Block with a
properly padded one does make the flush signal an error. -/
theorem packer_capacity_error_only_on_mismatch :
    (∀ bl : List (List Nat), (stackBlocks bl).isNone = true ↔
      bl = [] ∨ ∃ x ∈ bl, ∃ y ∈ bl, x.length ≠ y.length) ∧
    (∀ bs pad : Nat, ∀ ids : List Nat, bs < ids.length → padTo bs pad ids = ids) ∧
    mapToBatchShards BLOCK_SIZE SLICE_SIZE 50256 [overlong, [1, 2, 3, 4, 50256]]
      ([overlong, [1, 2, 3, 4, 50256]].map List.length) = [none] := by
  refine ⟨?_, ?_, by decide⟩
  · intro bl
    cases bl with
    | nil => simp [stackBlocks]
    | cons x rest =>
      simp only [stackBlocks]
      by_cases hall : rest.all (fun y => y.length == x.length) = true
      · rw [if_pos hall]
        have hx : ∀ z ∈ x :: rest, z.length = x.length := by
          intro z hz
          rcases List.mem_cons.mp hz with rfl | hz2
          · rfl
          · have := List.all_eq_true.mp hall z hz2
            exact eq_of_beq this
        constructor
        · intro h
          simp at h
        · rintro (h | ⟨a, ha, b, hb, hne⟩)
          · simp at h
          · exact absurd (by rw [hx a ha, hx b hb]) hne
      · rw [if_neg hall]
        constructor
        · intro _
          right
          have hne : ∃ y ∈ rest, ¬ (y.length == x.length) = true := by
            by_contra hc
            push_neg at hc
            exact hall (List.all_eq_true.mpr hc)
          obtain ⟨y, hy, hy2⟩ := hne
          refine ⟨x, List.mem_cons_self _ _, y, List.mem_cons_of_mem _ hy, ?_⟩
          intro heq
          exact hy2 (by simp [heq])
        · intro _
          rfl
  · intro bs pad ids hlt
    unfold padTo
    rw [if_neg (by omega)]

/-- Witness for the amended C6 at concrete inputs: a flush with two block
lengths is an error, and padding leaves a 9-entry array untouched at
capacity 8. -/
theorem packer_capacity_error_only_on_mismatch_witness :
    ((stackBlocks [[1], [2, 3]]).isNone = true ↔
      ([[1], [2, 3]] : List (List Nat)) = [] ∨
        ∃ x ∈ ([[1], [2, 3]] : List (List Nat)), ∃ y ∈ ([[1], [2, 3]] : List (List Nat)),
          x.length ≠ y.length) ∧
    padTo 8 0 (List.replicate 9 1) = List.replicate 9 1 :=
  ⟨packer_capacity_error_only_on_mismatch.1 [[1], [2, 3]],
    packer_capacity_error_only_on_mismatch.2.1 8 0 (List.replicate 9 1) (by decide)⟩

/-! ## Reslicer lemmas -/

lemma emitSlicesF_spec {α : Type} (ss : Nat) (hss : 0 < ss) :
    ∀ (fuel : Nat) (b : List α), b.length ≤ fuel →
      (emitSlicesF ss fuel b).1.flatten ++ (emitSlicesF ss fuel b).2 = b ∧
      (∀ s ∈ (emitSlicesF ss fuel b).1, s.length = ss) ∧
      (emitSlicesF ss fuel b).2.length < ss := by
  intro fuel
  induction fuel with
  | zero =>
    intro b hb
    have hb0 : b = [] := List.eq_nil_of_length_eq_zero (Nat.le_zero.mp hb)
    subst hb0
    exact ⟨by simp [emitSlicesF], by simp [emitSlicesF], by simpa [emitSlicesF] using hss⟩
  | succ fuel ih =>
    intro b hb
    simp only [emitSlicesF]
    by_cases hc : ss ≤ b.length ∧ 0 < ss
    · rw [if_pos hc]
      have hdl : (b.drop ss).length ≤ fuel := by
        rw [List.length_drop]
        omega
      obtain ⟨h1, h2, h3⟩ := ih (b.drop ss) hdl
      refine ⟨?_, ?_, h3⟩
      · simp only [List.flatten_cons]
        rw [List.append_assoc, h1, List.take_append_drop]
      · intro s hs
        rcases List.mem_cons.mp hs with rfl | hs2
        · rw [List.length_take]
          have := hc.1
          omega
        · exact h2 s hs2
    · rw [if_neg hc]
      refine ⟨by simp, by simp, ?_⟩
      have hlt : b.length < ss := by
        by_contra h2
        exact hc ⟨by omega, hss⟩
      simpa using hlt

lemma processRest_spec {α : Type} (ss : Nat) (hss : 0 < ss) :
    ∀ (files : List (List α)) (st : List (List α) × List α),
      (∀ s ∈ st.1, s.length = ss) → st.2.length < ss →
      ((files.foldl (processFile ss) st).1.flatten ++ (files.foldl (processFile ss) st).2
        = st.1.flatten ++ (st.2 ++ files.flatten)) ∧
      (∀ s ∈ (files.foldl (processFile ss) st).1, s.length = ss) ∧
      (files.foldl (processFile ss) st).2.length < ss := by
  intro files
  induction files with
  | nil =>
    intro st h1 h2
    refine ⟨by simp, by simpa using h1, by simpa using h2⟩
  | cons f fs ih =>
    intro st h1 h2
    rw [List.foldl_cons]
    obtain ⟨e1, e2, e3⟩ :=
      emitSlicesF_spec ss hss (st.2 ++ f).length (st.2 ++ f) le_rfl
    have hst1 : ∀ s ∈ (processFile ss st f).1, s.length = ss := by
      intro s hs
      unfold processFile at hs
      simp only [emitSlices] at hs
      rcases List.mem_append.mp hs with h | h
      · exact h1 s h
      · exact e2 s h
    have hst2 : (processFile ss st f).2.length < ss := by
      unfold processFile
      simp only [emitSlices]
      exact e3
    obtain ⟨r1, r2, r3⟩ := ih (processFile ss st f) hst1 hst2
    refine ⟨?_, r2, r3⟩
    rw [r1]
    unfold processFile
    simp only [emitSlices]
    rw [List.flatten_append, List.append_assoc]
    congr 1
    rw [← List.append_assoc, e1, List.flatten_cons, List.append_assoc]

/-- Claim C2 — the Reslicer conserves Blocks: concatenating the emitted
shards and appending the final buffered remainder reconstructs exactly the
concatenation of all consumed leftover shards (so every Block of a consumed
shard lands in exactly one output shard or in the final remainder, with no
loss or duplication), every output shard holds exactly `SLICE_SIZE` Blocks,
the final remainder is smaller than `SLICE_SIZE` (and is never written),
and total output Blocks plus the remainder equal total input Blocks. -/
theorem reslicer_conserves_blocks {α : Type} (files : List (List α)) (ss : Nat)
    (hss : 0 < ss) :
    (processRest ss files).1.flatten ++ (processRest ss files).2 = files.flatten ∧
    (∀ s ∈ (processRest ss files).1, s.length = ss) ∧
    (processRest ss files).2.length < ss ∧
    ((processRest ss files).1.map List.length).sum + (processRest ss files).2.length
      = (files.map List.length).sum := by
  obtain ⟨h1, h2, h3⟩ :=
    processRest_spec ss hss files ([], []) (by simp) (by simpa using hss)
  have h1x : (processRest ss files).1.flatten ++ (processRest ss files).2 = files.flatten := by
    unfold processRest
    simpa using h1
  refine ⟨h1x, ?_, ?_, ?_⟩
  · unfold processRest
    exact h2
  · unfold processRest
    exact h3
  · have hlen := congrArg List.length h1x
    rw [List.length_append, List.length_flatten, List.length_flatten] at hlen
    exact hlen

/-- Witness for C2 at the spec's concrete scenario 2: `SLICE_SIZE = 3`, a
4-Block leftover shard then a 5-Block one. -/
theorem reslicer_conserves_blocks_witness :
    (processRest 3 [[0, 1, 2, 3], [4, 5, 6, 7, 8]]).1.flatten
        ++ (processRest 3 [[0, 1, 2, 3], [4, 5, 6, 7, 8]]).2
      = ([[0, 1, 2, 3], [4, 5, 6, 7, 8]] : List (List Nat)).flatten ∧
    (∀ s ∈ (processRest 3 [[0, 1, 2, 3], [4, 5, 6, 7, 8]]).1, s.length = 3) ∧
    (processRest 3 [[0, 1, 2, 3], [4, 5, 6, 7, 8]]).2.length < 3 ∧
    ((processRest 3 [[0, 1, 2, 3], [4, 5, 6, 7, 8]]).1.map List.length).sum
        + (processRest 3 [[0, 1, 2, 3], [4, 5, 6, 7, 8]]).2.length
      = (([[0, 1, 2, 3], [4, 5, 6, 7, 8]] : List (List Nat)).map List.length).sum :=
  reslicer_conserves_blocks [[0, 1, 2, 3], [4, 5, 6, 7, 8]] 3 (by decide)

/-- Claim C7 — when every leftover shard holds fewer than `SLICE_SIZE`
Blocks, the rolling buffer stays bounded: after any number of files have
been folded in and all possible full shards emitted, fewer than
`SLICE_SIZE` Blocks remain buffered, and the buffer peak while folding in
the next file (previous remainder plus that file, before slices are cut —
during slicing the buffer only shrinks) is at most `2 * SLICE_SIZE - 1`. -/
theorem reslicer_buffer_bounded {α : Type} (ss : Nat) (files : List (List α)) (n : Nat)
    (f : List α) (hss : 0 < ss) (hfiles : ∀ g ∈ files, g.length < ss) :
    (processRest ss (files.take n)).2.length < ss ∧
    (files.get? n = some f →
      ((processRest ss (files.take n)).2 ++ f).length ≤ 2 * ss - 1) := by
  obtain ⟨-, -, h3⟩ :=
    processRest_spec ss hss (files.take n) ([], []) (by simp) (by simpa using hss)
  have hrem : (processRest ss (files.take n)).2.length < ss := by
    unfold processRest
    exact h3
  refine ⟨hrem, ?_⟩
  intro hget
  have hflen : f.length < ss := hfiles f (List.get?_mem hget)
  rw [List.length_append]
  omega

/-- Witness for C7 at a small concrete run (`SLICE_SIZE = 3`, two 2-Block
leftover shards, peak while folding in the second file). -/
theorem reslicer_buffer_bounded_witness :
    (processRest 3 (([[0, 1], [2, 3]] : List (List Nat)).take 1)).2.length < 3 ∧
    (([[0, 1], [2, 3]] : List (List Nat)).get? 1 = some [2, 3] →
      ((processRest 3 (([[0, 1], [2, 3]] : List (List Nat)).take 1)).2 ++ [2, 3]).length
        ≤ 2 * 3 - 1) :=
  reslicer_buffer_bounded 3 [[0, 1], [2, 3]] 1 [2, 3] (by decide) (by decide)

end SeqPack
